import Mathlib

/-!
Verification of the optimization pass of `src/src/optimizer.rs`: the
partition-and-fuse driver (`optimize`, `apply_optimisation`, `insert_dup`)
and the concrete `SimplePatternGroup` strategy (`select`,
`group_by_criteria`, `fusion`).

The filter entity type `NetworkFilter` together with `FilterPart`,
`NetworkFilterMask` and the classification predicates live in
`crate::filters::network`, which is not part of the sources; those are
modelled from the specification, as marked on each definition.  The Rust
`HashMap` used for grouping has an unspecified iteration order; it is
modelled here as an association list iterated in key-insertion order
(a deterministic representative of the permitted orders).
-/

set_option maxHeartbeats 1000000

/-- Modelled from the spec: the pattern of a filter entity (the `FilterPart`
type of `crate::filters::network`, not under src/).  Variants: no-pattern
(matches any path), single pattern (one string), multi-pattern (an ordered
list of alternative strings, any one of which matching is sufficient). -/
inductive FilterPart where
  | Empty : FilterPart
  | Simple : String → FilterPart
  | AnyOf : List String → FilterPart
  deriving DecidableEq, Repr

/-- Modelled from the spec: bit position of the "is a regex-style pattern"
flag inside the fixed-width flag bitset (`NetworkFilterMask::IS_REGEX`).
The concrete position is immaterial; the positions below are distinct. -/
def IS_REGEX : Nat := 1

/-- Modelled from the spec: bit position of the "is a fully-anchored/complete
regex" flag (`NetworkFilterMask::IS_COMPLETE_REGEX`). -/
def IS_COMPLETE_REGEX : Nat := 2

/-- Modelled from the spec: bit position of the "is fuzzy" flag
(`NetworkFilterMask::FUZZY_MATCH`). -/
def FUZZY_MATCH : Nat := 3

/-- Modelled from the spec: bit position of the "is a hostname anchor" flag
(`NetworkFilterMask::IS_HOSTNAME_ANCHOR`). -/
def IS_HOSTNAME_ANCHOR : Nat := 4

/-- Modelled from the spec: bit position of the "is a redirect rule" flag. -/
def IS_REDIRECT : Nat := 5

/-- Modelled from the spec: bit position of the "is a CSP rule" flag
(`NetworkFilterMask::IS_CSP`). -/
def IS_CSP : Nat := 6

/-- Modelled from the spec: the filter entity (`NetworkFilter` of
`crate::filters::network`, not under src/).  Fields, following the data
model of the spec: the flag bitset (a 32-bit value, held as a `Nat`), the
pattern, the optional domain include and exclude lists, the optional
bug-id, and the optional raw source line. -/
structure NetworkFilter where
  mask : Nat
  filter : FilterPart
  opt_domains : Option (List Nat)
  opt_not_domains : Option (List Nat)
  bug : Option Nat
  raw_line : Option String
  deriving DecidableEq, Repr

namespace NetworkFilter

/-- Modelled from the spec: classification predicate reading the
"is fuzzy" bit of the flag bitset. -/
def is_fuzzy (f : NetworkFilter) : Bool := f.mask.testBit FUZZY_MATCH

/-- Modelled from the spec: classification predicate reading the
"complete regex" bit of the flag bitset. -/
def is_complete_regex (f : NetworkFilter) : Bool := f.mask.testBit IS_COMPLETE_REGEX

/-- Modelled from the spec: classification predicate reading the
"hostname anchor" bit of the flag bitset. -/
def is_hostname_anchor (f : NetworkFilter) : Bool := f.mask.testBit IS_HOSTNAME_ANCHOR

/-- Modelled from the spec: classification predicate reading the
"redirect rule" bit of the flag bitset. -/
def is_redirect (f : NetworkFilter) : Bool := f.mask.testBit IS_REDIRECT

/-- Modelled from the spec: classification predicate reading the
"CSP rule" bit of the flag bitset. -/
def is_csp (f : NetworkFilter) : Bool := f.mask.testBit IS_CSP

/-- Modelled from the spec: a filter carries a bug-id iff its optional
bug-id field is populated. -/
def has_bug (f : NetworkFilter) : Bool := f.bug.isSome

end NetworkFilter

/-- Modelled from the spec: the `bitflags` `set` operation used by
`mask.set(flag, value)` — insert the bit when the value is true, remove it
(within the 32-bit width) when false. -/
def maskSet (m : Nat) (i : Nat) (b : Bool) : Nat :=
  if b then m ||| 2 ^ i else m &&& ((2 ^ 32 - 1) ^^^ 2 ^ i)

/-- One binary digit as a character, as in Rust `{:b}` formatting. -/
def bitChar (b : Bool) : Char := if b then '1' else '0'

/-- Fuelled binary rendering of a natural number (most significant digit
first, no leading zeros); the fuel argument makes the recursion structural. -/
def binDigitsAux : Nat → Nat → List Char
  | _, 0 => []
  | 0, _ + 1 => []
  | fuel + 1, n + 1 =>
    binDigitsAux fuel ((n + 1) / 2) ++ [bitChar (decide ((n + 1) % 2 = 1))]

/-- Modelled from the spec: Rust `{:b}` formatting of the flag bitset, as
used by the grouping key (binary digits, `"0"` for zero). -/
def binString (n : Nat) : String :=
  if n = 0 then "0" else String.mk (binDigitsAux n n)

/-- Modelled from the spec: Rust `{:?}` formatting of a boolean. -/
def boolString (b : Bool) : String := if b then "true" else "false"

/-- The `Optimization` trait of the source: a fusion strategy bundles a
fusion function, a grouping-key function and a selection predicate.  The
fusion function returns `none` on an empty group, modelling the panic of
indexing `filters[0]` there. -/
structure Optimization where
  fusion : List NetworkFilter → Option NetworkFilter
  group_by_criteria : NetworkFilter → String
  select : NetworkFilter → Bool

/-- `insert_dup` of the source: append `v` to the entry of key `k`,
creating the entry if absent.  The Rust `HashMap` is modelled as an
association list in key-insertion order. -/
def insert_dup (m : List (String × List NetworkFilter)) (k : String)
    (v : NetworkFilter) : List (String × List NetworkFilter) :=
  match m with
  | [] => [(k, [v])]
  | (k', vs) :: rest =>
    if k' = k then (k', vs ++ [v]) :: rest else (k', vs) :: insert_dup rest k v

/-- The grouping loop of `apply_optimisation`: fold the eligible filters
into the keyed multimap with `insert_dup`. -/
def buildGroups (o : Optimization) (fs : List NetworkFilter) :
    List (String × List NetworkFilter) :=
  fs.foldl (fun m f => insert_dup m (o.group_by_criteria f) f) []

/-- One step of the fusion loop of `apply_optimisation`: a group with more
than one member is fused onto the fused output, otherwise its members are
appended to the passthrough output. -/
def fuseStep (o : Optimization) (acc : List NetworkFilter × List NetworkFilter)
    (g : String × List NetworkFilter) : List NetworkFilter × List NetworkFilter :=
  if 1 < g.2.length then (acc.1 ++ (o.fusion g.2).toList, acc.2) else (acc.1, acc.2 ++ g.2)

/-- `apply_optimisation` of the source: partition by the selection
predicate, group the selected filters by their grouping key, fuse every
group with more than one member, and pass everything else through. -/
def apply_optimisation (o : Optimization) (filters : List NetworkFilter) :
    List NetworkFilter × List NetworkFilter :=
  let pn := filters.partition (fun f => o.select f)
  (buildGroups o pn.1).foldl (fuseStep o) ([], pn.2)

namespace SimplePatternGroup

/-- The pattern computed by `SimplePatternGroup::fusion`: if any member has
the empty (match-anything) pattern the result is empty; otherwise the
member pattern strings are flattened in order and repacked. -/
def fusePattern (filters : List NetworkFilter) : FilterPart :=
  if filters.any (fun f => match f.filter with | FilterPart.Empty => true | _ => false) then
    FilterPart.Empty
  else
    let flat_patterns : List String :=
      filters.foldl (fun acc f =>
        match f.filter with
        | FilterPart.Empty => acc
        | FilterPart.Simple s => acc ++ [s]
        | FilterPart.AnyOf l => acc ++ l) []
    match flat_patterns with
    | [] => FilterPart.Empty
    | [s] => FilterPart.Simple s
    | _ => FilterPart.AnyOf flat_patterns

/-- `SimplePatternGroup::fusion` of the source.  The base filter is the
first element (`filters[0]`, a panic on the empty slice, modelled by
`none`); its clone receives the fused pattern, the regex flag bits and the
joined raw lines. -/
def fusion (filters : List NetworkFilter) : Option NetworkFilter :=
  match filters with
  | [] => none
  | base_filter :: _ =>
    let fpart := fusePattern filters
    let mask1 := maskSet base_filter.mask IS_REGEX true
    let is_complete := filters.any (fun f => f.is_complete_regex)
    let mask2 := maskSet mask1 IS_COMPLETE_REGEX is_complete
    let raw :=
      if base_filter.raw_line.isSome then
        some (String.intercalate " <+> " (filters.filterMap (fun f => f.raw_line)))
      else base_filter.raw_line
    some { base_filter with filter := fpart, mask := mask2, raw_line := raw }

/-- `SimplePatternGroup::group_by_criteria` of the source:
`format!("\x7b:b\x7d:\x7b:?\x7d", filter.mask, filter.is_complete_regex())`. -/
def group_by_criteria (f : NetworkFilter) : String :=
  binString f.mask ++ ":" ++ boolString f.is_complete_regex

/-- `SimplePatternGroup::select` of the source. -/
def select (f : NetworkFilter) : Bool :=
  !f.is_fuzzy && f.opt_domains.isNone && f.opt_not_domains.isNone
    && !f.is_hostname_anchor && !f.is_redirect && !f.is_csp && !f.has_bug

end SimplePatternGroup

/-- The `SimplePatternGroup` strategy packaged as an `Optimization`. -/
def simple_pattern_group : Optimization :=
  { fusion := SimplePatternGroup.fusion
    group_by_criteria := SimplePatternGroup.group_by_criteria
    select := SimplePatternGroup.select }

/-- `optimize` of the source: run the single strategy and append the
passthrough filters after the fused ones. -/
def optimize (filters : List NetworkFilter) : List NetworkFilter :=
  let fu := apply_optimisation simple_pattern_group filters
  fu.1 ++ fu.2

/-! ## Derived descriptions of the output of `optimize` -/

/-- The groups built from the eligible filters of `F`. -/
def groupsOf (F : List NetworkFilter) : List (String × List NetworkFilter) :=
  buildGroups simple_pattern_group (F.filter (fun f => simple_pattern_group.select f))

/-- The grouping-key classes with at least two members. -/
def bigGroupsOf (F : List NetworkFilter) : List (String × List NetworkFilter) :=
  (groupsOf F).filter (fun g => decide (1 < g.2.length))

/-- The grouping-key classes with exactly one member. -/
def smallGroupsOf (F : List NetworkFilter) : List (String × List NetworkFilter) :=
  (groupsOf F).filter (fun g => !decide (1 < g.2.length))

/-- One fused filter per class with at least two members. -/
def fusedOf (F : List NetworkFilter) : List NetworkFilter :=
  (bigGroupsOf F).filterMap (fun g => SimplePatternGroup.fusion g.2)

/-- The ineligible filters, in input order. -/
def ineligOf (F : List NetworkFilter) : List NetworkFilter :=
  F.filter (fun f => !simple_pattern_group.select f)

/-- The eligible filters whose class has exactly one member. -/
def singlesOf (F : List NetworkFilter) : List NetworkFilter :=
  ((smallGroupsOf F).map (fun g => g.2)).flatten

/-! ## Request matching (spec model) -/

/-- Modelled from the spec: whether a pattern accepts a request URL, given a
black-box single-string matcher `pm` (the regex-compilation backend and its
evaluation are out of scope).  No-pattern matches any path; multi-pattern
matches when any one alternative matches. -/
def FilterPart.matchesWith (pm : String → String → Bool) : FilterPart → String → Bool
  | FilterPart.Empty, _ => true
  | FilterPart.Simple s, url => pm s url
  | FilterPart.AnyOf l, url => l.any (fun s => pm s url)

/-- The non-pattern matching data of a filter: every field that the spec
allows request matching to consult besides the pattern — the flag bitset
with the two regex representation bits removed, the domain lists and the
bug-id.  The regex bits only choose the evaluation engine, whose observable
behaviour is out of scope and assumed equivalent. -/
def nonPatternKey (f : NetworkFilter) :
    Nat × Option (List Nat) × Option (List Nat) × Option Nat :=
  (maskSet (maskSet f.mask IS_REGEX false) IS_COMPLETE_REGEX false,
    f.opt_domains, f.opt_not_domains, f.bug)

/-- Modelled from the spec: request matching of a filter entity (the
`matches` machinery of `crate::filters::network` and `crate::request`, not
under src/).  A filter matches a request URL when its non-pattern
constraints (an arbitrary black-box predicate `np` of the non-pattern
data) accept it and its pattern accepts it under the black-box string
matcher `pm`. -/
def NetworkFilter.matchesWith
    (np : Nat × Option (List Nat) × Option (List Nat) × Option Nat → String → Bool)
    (pm : String → String → Bool) (f : NetworkFilter) (url : String) : Bool :=
  np (nonPatternKey f) url && f.filter.matchesWith pm url

/-- Modelled from the spec: well-formedness of a filter entity — the
multi-pattern variant never holds zero or one element. -/
def wellFormed (f : NetworkFilter) : Bool :=
  match f.filter with
  | FilterPart.AnyOf l => decide (2 ≤ l.length)
  | _ => true

/-! ## The grouping key determines the mask -/

/-- The value a most-significant-first binary digit list denotes. -/
def bitsVal (l : List Char) : Nat :=
  l.foldl (fun a c => 2 * a + (if c = '1' then 1 else 0)) 0

theorem bitsVal_append_single (l : List Char) (c : Char) :
    bitsVal (l ++ [c]) = 2 * bitsVal l + (if c = '1' then 1 else 0) := by
  simp [bitsVal, List.foldl_append]

theorem binDigitsAux_val : ∀ fuel n, n ≤ fuel → bitsVal (binDigitsAux fuel n) = n := by
  intro fuel
  induction fuel with
  | zero =>
    intro n hn
    interval_cases n
    simp [binDigitsAux, bitsVal]
  | succ fuel ih =>
    intro n hn
    match n with
    | 0 => simp [binDigitsAux, bitsVal]
    | m + 1 =>
      have hdiv : (m + 1) / 2 ≤ fuel := by
        have h1 : (m + 1) / 2 < m + 1 := Nat.div_lt_self (Nat.succ_pos m) (by omega)
        omega
      have := ih ((m + 1) / 2) hdiv
      rw [binDigitsAux, bitsVal_append_single, this]
      have hm : (m + 1) % 2 = 0 ∨ (m + 1) % 2 = 1 := by omega
      rcases hm with hm | hm <;> simp [bitChar, hm] <;> omega

theorem bitsVal_binString (n : Nat) : bitsVal (binString n).data = n := by
  by_cases h : n = 0
  · subst h; decide
  · rw [binString, if_neg h]
    exact binDigitsAux_val n n le_rfl

theorem binString_inj {n m : Nat} (h : binString n = binString m) : n = m := by
  have := congrArg (fun s => bitsVal s.data) h
  simpa [bitsVal_binString] using this

theorem binDigitsAux_mem : ∀ fuel n c, c ∈ binDigitsAux fuel n → c = '0' ∨ c = '1' := by
  intro fuel
  induction fuel with
  | zero =>
    intro n c hc
    match n with
    | 0 => simp [binDigitsAux] at hc
    | m + 1 => simp [binDigitsAux] at hc
  | succ fuel ih =>
    intro n c hc
    match n with
    | 0 => simp [binDigitsAux] at hc
    | m + 1 =>
      rw [binDigitsAux] at hc
      rcases List.mem_append.mp hc with hc | hc
      · exact ih _ _ hc
      · rcases List.mem_singleton.mp hc with rfl
        by_cases hb : decide ((m + 1) % 2 = 1) <;> simp [bitChar, hb]

theorem colon_not_mem_binString (n : Nat) : ':' ∉ (binString n).data := by
  by_cases h : n = 0
  · subst h; decide
  · rw [binString, if_neg h]
    intro hc
    rcases binDigitsAux_mem n n ':' hc with h1 | h1 <;> simp at h1

theorem append_colon_inj :
    ∀ (l1 l2 r1 r2 : List Char), ':' ∉ l1 → ':' ∉ l2 →
      l1 ++ ':' :: r1 = l2 ++ ':' :: r2 → l1 = l2 := by
  intro l1
  induction l1 with
  | nil =>
    intro l2 r1 r2 _ h2 h
    match l2 with
    | [] => rfl
    | c :: t =>
      exfalso
      have : ':' = c := by simpa using congrArg (fun l => l.headI) h
      exact h2 (this ▸ List.mem_cons_self c t)
  | cons c t ih =>
    intro l2 r1 r2 h1 h2 h
    match l2 with
    | [] =>
      exfalso
      have : c = ':' := by simpa using congrArg (fun l => l.headI) h
      exact h1 (this ▸ List.mem_cons_self c t)
    | c2 :: t2 =>
      have hc : c = c2 := by simpa using congrArg (fun l => l.headI) h
      have ht : t ++ ':' :: r1 = t2 ++ ':' :: r2 := by
        exact (by simpa using h : c = c2 ∧ t ++ ':' :: r1 = t2 ++ ':' :: r2).2
      have := ih t2 r1 r2 (fun hm => h1 (List.mem_cons_of_mem c hm))
        (fun hm => h2 (List.mem_cons_of_mem c2 hm)) ht
      rw [hc, this]

theorem group_by_criteria_eq_mask {f1 f2 : NetworkFilter}
    (h : SimplePatternGroup.group_by_criteria f1 = SimplePatternGroup.group_by_criteria f2) :
    f1.mask = f2.mask := by
  have hd := congrArg String.data h
  simp only [SimplePatternGroup.group_by_criteria, String.data_append] at hd
  have hbin : (binString f1.mask).data = (binString f2.mask).data := by
    apply append_colon_inj _ _ ((boolString f1.is_complete_regex).data)
      ((boolString f2.is_complete_regex).data)
      (colon_not_mem_binString _) (colon_not_mem_binString _)
    simpa using hd
  have : binString f1.mask = binString f2.mask := String.ext hbin
  exact binString_inj this

/-! ## Invariants of the grouping multimap -/

theorem foldl_inv {α β : Type} (I : β → Prop) (step : β → α → β) :
    ∀ (l : List α) (acc : β), I acc → (∀ a ∈ l, ∀ m, I m → I (step m a)) →
      I (l.foldl step acc) := by
  intro l
  induction l with
  | nil => intro acc hacc _; exact hacc
  | cons a l ih =>
    intro acc hacc hstep
    exact ih (step acc a) (hstep a (List.mem_cons_self a l) acc hacc)
      (fun b hb m hm => hstep b (List.mem_cons_of_mem a hb) m hm)

theorem insert_dup_keyed (kf : NetworkFilter → String)
    (m : List (String × List NetworkFilter)) (k : String) (v : NetworkFilter)
    (hm : ∀ g ∈ m, ∀ x ∈ g.2, kf x = g.1) (hv : kf v = k) :
    ∀ g ∈ insert_dup m k v, ∀ x ∈ g.2, kf x = g.1 := by
  induction m with
  | nil =>
    intro g hg x hx
    simp only [insert_dup, List.mem_singleton] at hg
    subst hg
    rcases List.mem_singleton.mp hx with rfl
    exact hv
  | cons p rest ih =>
    obtain ⟨k', vs⟩ := p
    intro g hg x hx
    rw [insert_dup] at hg
    by_cases hk : k' = k
    · rw [if_pos hk] at hg
      rcases List.mem_cons.mp hg with rfl | hg
      · rcases List.mem_append.mp hx with hx | hx
        · exact hm (k', vs) (List.mem_cons_self _ _) x hx
        · rcases List.mem_singleton.mp hx with rfl
          rw [hv, hk]
      · exact hm g (List.mem_cons_of_mem _ hg) x hx
    · rw [if_neg hk] at hg
      rcases List.mem_cons.mp hg with rfl | hg
      · exact hm (k', vs) (List.mem_cons_self _ _) x hx
      · exact ih (fun g' hg' => hm g' (List.mem_cons_of_mem _ hg')) g hg x hx

theorem insert_dup_prop (P : NetworkFilter → Prop)
    (m : List (String × List NetworkFilter)) (k : String) (v : NetworkFilter)
    (hm : ∀ g ∈ m, ∀ x ∈ g.2, P x) (hv : P v) :
    ∀ g ∈ insert_dup m k v, ∀ x ∈ g.2, P x := by
  induction m with
  | nil =>
    intro g hg x hx
    simp only [insert_dup, List.mem_singleton] at hg
    subst hg
    rcases List.mem_singleton.mp hx with rfl
    exact hv
  | cons p rest ih =>
    obtain ⟨k', vs⟩ := p
    intro g hg x hx
    rw [insert_dup] at hg
    by_cases hk : k' = k
    · rw [if_pos hk] at hg
      rcases List.mem_cons.mp hg with rfl | hg
      · rcases List.mem_append.mp hx with hx | hx
        · exact hm (k', vs) (List.mem_cons_self _ _) x hx
        · rcases List.mem_singleton.mp hx with rfl
          exact hv
      · exact hm g (List.mem_cons_of_mem _ hg) x hx
    · rw [if_neg hk] at hg
      rcases List.mem_cons.mp hg with rfl | hg
      · exact hm (k', vs) (List.mem_cons_self _ _) x hx
      · exact ih (fun g' hg' => hm g' (List.mem_cons_of_mem _ hg')) g hg x hx

theorem insert_dup_ne_nil
    (m : List (String × List NetworkFilter)) (k : String) (v : NetworkFilter)
    (hm : ∀ g ∈ m, g.2 ≠ []) :
    ∀ g ∈ insert_dup m k v, g.2 ≠ [] := by
  induction m with
  | nil =>
    intro g hg
    simp only [insert_dup, List.mem_singleton] at hg
    subst hg
    simp
  | cons p rest ih =>
    obtain ⟨k', vs⟩ := p
    intro g hg
    rw [insert_dup] at hg
    by_cases hk : k' = k
    · rw [if_pos hk] at hg
      rcases List.mem_cons.mp hg with rfl | hg
      · simp
      · exact hm g (List.mem_cons_of_mem _ hg)
    · rw [if_neg hk] at hg
      rcases List.mem_cons.mp hg with rfl | hg
      · exact hm (k', vs) (List.mem_cons_self _ _)
      · exact ih (fun g' hg' => hm g' (List.mem_cons_of_mem _ hg')) g hg

theorem insert_dup_flatten_perm
    (m : List (String × List NetworkFilter)) (k : String) (v : NetworkFilter) :
    ((insert_dup m k v).map (fun g => g.2)).flatten.Perm
      ((m.map (fun g => g.2)).flatten ++ [v]) := by
  induction m with
  | nil => simp [insert_dup]
  | cons p rest ih =>
    obtain ⟨k', vs⟩ := p
    rw [insert_dup]
    by_cases hk : k' = k
    · rw [if_pos hk]
      simp only [List.map_cons, List.flatten_cons, List.append_assoc]
      exact (@List.perm_append_comm _ [v] ((rest.map (fun g => g.2)).flatten)).append_left vs
    · rw [if_neg hk]
      simp only [List.map_cons, List.flatten_cons, List.append_assoc]
      exact ih.append_left vs

theorem buildGroups_flatten_perm (o : Optimization) (fs : List NetworkFilter) :
    ((buildGroups o fs).map (fun g => g.2)).flatten.Perm fs := by
  have main : ∀ (l : List NetworkFilter) (m : List (String × List NetworkFilter)),
      (((l.foldl (fun m f => insert_dup m (o.group_by_criteria f) f) m).map
        (fun g => g.2)).flatten).Perm ((m.map (fun g => g.2)).flatten ++ l) := by
    intro l
    induction l with
    | nil => intro m; simp
    | cons f l ih =>
      intro m
      rw [List.foldl_cons]
      refine (ih (insert_dup m (o.group_by_criteria f) f)).trans ?_
      refine ((insert_dup_flatten_perm m (o.group_by_criteria f) f).append_right l).trans ?_
      rw [List.append_assoc]
      exact List.Perm.refl _
  simpa using main fs []

theorem buildGroups_keyed (o : Optimization) (fs : List NetworkFilter) :
    ∀ g ∈ buildGroups o fs, ∀ x ∈ g.2, o.group_by_criteria x = g.1 := by
  unfold buildGroups
  refine foldl_inv
    (fun (m : List (String × List NetworkFilter)) =>
      ∀ g ∈ m, ∀ x ∈ g.2, o.group_by_criteria x = g.1)
    (fun m f => insert_dup m (o.group_by_criteria f) f) fs []
    (by intro g hg; simp at hg) ?_
  intro f _ m hm
  exact insert_dup_keyed (o.group_by_criteria) m _ f hm rfl

theorem buildGroups_mem_prop (o : Optimization) (P : NetworkFilter → Prop)
    (fs : List NetworkFilter) (hf : ∀ f ∈ fs, P f) :
    ∀ g ∈ buildGroups o fs, ∀ x ∈ g.2, P x := by
  unfold buildGroups
  refine foldl_inv
    (fun (m : List (String × List NetworkFilter)) => ∀ g ∈ m, ∀ x ∈ g.2, P x)
    (fun m f => insert_dup m (o.group_by_criteria f) f) fs []
    (by intro g hg; simp at hg) ?_
  intro f hfl m hm
  exact insert_dup_prop P m _ f hm (hf f hfl)

theorem buildGroups_ne_nil (o : Optimization) (fs : List NetworkFilter) :
    ∀ g ∈ buildGroups o fs, g.2 ≠ [] := by
  unfold buildGroups
  refine foldl_inv
    (fun (m : List (String × List NetworkFilter)) => ∀ g ∈ m, g.2 ≠ [])
    (fun m f => insert_dup m (o.group_by_criteria f) f) fs []
    (by intro g hg; simp at hg) ?_
  intro f _ m hm
  exact insert_dup_ne_nil m _ f hm

/-! ## The shape of the driver output -/

theorem foldl_fuseStep (o : Optimization) :
    ∀ (gs : List (String × List NetworkFilter)) (A N : List NetworkFilter),
      gs.foldl (fuseStep o) (A, N) =
        (A ++ (gs.filter (fun g => decide (1 < g.2.length))).filterMap (fun g => o.fusion g.2),
          N ++ ((gs.filter (fun g => !decide (1 < g.2.length))).map (fun g => g.2)).flatten) := by
  intro gs
  induction gs with
  | nil => intro A N; simp
  | cons g gs ih =>
    intro A N
    rw [List.foldl_cons]
    by_cases h : 1 < g.2.length
    · have hstep : fuseStep o (A, N) g = (A ++ (o.fusion g.2).toList, N) := by
        simp [fuseStep, h]
      rw [hstep, ih]
      have hf : List.filter (fun g => decide (1 < g.2.length)) (g :: gs)
          = g :: List.filter (fun g => decide (1 < g.2.length)) gs := by
        simp [List.filter_cons, h]
      have hn : List.filter (fun g => !decide (1 < g.2.length)) (g :: gs)
          = List.filter (fun g => !decide (1 < g.2.length)) gs := by
        simp [List.filter_cons, h]
      rw [hf, hn, List.filterMap_cons]
      cases hfu : o.fusion g.2 <;> simp [List.append_assoc]
    · have hstep : fuseStep o (A, N) g = (A, N ++ g.2) := by
        simp [fuseStep, h]
      rw [hstep, ih]
      have hf : List.filter (fun g => decide (1 < g.2.length)) (g :: gs)
          = List.filter (fun g => decide (1 < g.2.length)) gs := by
        simp [List.filter_cons, h]
      have hn : List.filter (fun g => !decide (1 < g.2.length)) (g :: gs)
          = g :: List.filter (fun g => !decide (1 < g.2.length)) gs := by
        simp [List.filter_cons, h]
      rw [hf, hn]
      simp [List.append_assoc]

theorem apply_optimisation_eq (F : List NetworkFilter) :
    apply_optimisation simple_pattern_group F = (fusedOf F, ineligOf F ++ singlesOf F) := by
  rw [apply_optimisation]
  rw [List.partition_eq_filter_filter]
  rw [foldl_fuseStep]
  simp only [List.nil_append]
  rfl

theorem optimize_structure (F : List NetworkFilter) :
    optimize F = fusedOf F ++ ineligOf F ++ singlesOf F := by
  rw [optimize, apply_optimisation_eq]
  simp [List.append_assoc]

theorem testBit_maskSet_true (m i j : Nat) :
    (maskSet m i true).testBit j = (m.testBit j || decide (i = j)) := by
  simp [maskSet, Nat.testBit_lor, Nat.testBit_two_pow]

theorem testBit_maskSet_false (m i j : Nat) (hi : i < 32) :
    (maskSet m i false).testBit j
      = (m.testBit j && (decide (j < 32) && !decide (j = i))) := by
  rw [maskSet, if_neg (by simp)]
  rw [Nat.testBit_land, Nat.testBit_xor, Nat.testBit_two_pow_sub_one, Nat.testBit_two_pow]
  by_cases h32 : j < 32
  · by_cases hij : j = i
    · subst hij
      simp [h32]
    · have : ¬ (i = j) := fun h => hij h.symm
      simp [h32, hij, this]
  · have hij : ¬ (j = i) := by omega
    have : ¬ (i = j) := fun h => hij h.symm
    simp [h32, hij, this]

theorem testBit_clearRegex (m j : Nat) :
    (maskSet (maskSet m IS_REGEX false) IS_COMPLETE_REGEX false).testBit j
      = (m.testBit j
          && (decide (j < 32) && !decide (j = IS_REGEX) && !decide (j = IS_COMPLETE_REGEX))) := by
  rw [testBit_maskSet_false _ _ _ (by norm_num [IS_COMPLETE_REGEX]),
    testBit_maskSet_false _ _ _ (by norm_num [IS_REGEX])]
  cases h1 : m.testBit j <;> cases h2 : decide (j < 32) <;>
    cases h3 : decide (j = IS_REGEX) <;> cases h4 : decide (j = IS_COMPLETE_REGEX) <;> simp

theorem testBit_fusedMask_other (A : Nat) (b : Bool) (j : Nat)
    (hIR : j ≠ IS_REGEX) (hICR : j ≠ IS_COMPLETE_REGEX) (h32 : j < 32) :
    (maskSet (maskSet A IS_REGEX true) IS_COMPLETE_REGEX b).testBit j = A.testBit j := by
  cases b
  · rw [testBit_maskSet_false _ _ _ (by norm_num [IS_COMPLETE_REGEX]), testBit_maskSet_true]
    have h1 : ¬ (IS_REGEX = j) := fun h => hIR h.symm
    simp [h1, hICR, h32]
  · rw [testBit_maskSet_true, testBit_maskSet_true]
    have h1 : ¬ (IS_REGEX = j) := fun h => hIR h.symm
    have h2 : ¬ (IS_COMPLETE_REGEX = j) := fun h => hICR h.symm
    simp [h1, h2]

theorem testBit_fusedMask_IR (A : Nat) (b : Bool) :
    (maskSet (maskSet A IS_REGEX true) IS_COMPLETE_REGEX b).testBit IS_REGEX = true := by
  cases b
  · rw [testBit_maskSet_false _ _ _ (by norm_num [IS_COMPLETE_REGEX]), testBit_maskSet_true]
    simp [IS_REGEX, IS_COMPLETE_REGEX]
  · rw [testBit_maskSet_true, testBit_maskSet_true]
    simp

theorem testBit_fusedMask_ICR (A : Nat) (b : Bool) :
    (maskSet (maskSet A IS_REGEX true) IS_COMPLETE_REGEX b).testBit IS_COMPLETE_REGEX = b := by
  cases b
  · rw [testBit_maskSet_false _ _ _ (by norm_num [IS_COMPLETE_REGEX])]
    simp
  · rw [testBit_maskSet_true]
    simp

theorem clearRegex_fusedMask (A : Nat) (b : Bool) :
    maskSet (maskSet (maskSet (maskSet A IS_REGEX true) IS_COMPLETE_REGEX b)
        IS_REGEX false) IS_COMPLETE_REGEX false
      = maskSet (maskSet A IS_REGEX false) IS_COMPLETE_REGEX false := by
  apply Nat.eq_of_testBit_eq
  intro j
  rw [testBit_clearRegex, testBit_clearRegex]
  by_cases h32 : j < 32
  · by_cases hIR : j = IS_REGEX
    · simp [hIR]
    · by_cases hICR : j = IS_COMPLETE_REGEX
      · simp [hICR]
      · rw [testBit_fusedMask_other A b j hIR hICR h32]
  · simp [h32]

/-- The pattern strings a filter contributes to the flattened union: none
for no-pattern, one for single-pattern, all of them for multi-pattern. -/
def patStrings : FilterPart → List String
  | FilterPart.Empty => []
  | FilterPart.Simple s => [s]
  | FilterPart.AnyOf l => l

/-- Whether a pattern is the no-pattern variant, as tested by the fusion. -/
def isEmptyPart (f : NetworkFilter) : Bool :=
  match f.filter with
  | FilterPart.Empty => true
  | _ => false

theorem foldl_flat_eq (filters : List NetworkFilter) (acc : List String) :
    filters.foldl (fun acc f =>
        match f.filter with
        | FilterPart.Empty => acc
        | FilterPart.Simple s => acc ++ [s]
        | FilterPart.AnyOf l => acc ++ l) acc
      = acc ++ (filters.map (fun f => patStrings f.filter)).flatten := by
  induction filters generalizing acc with
  | nil => simp
  | cons f fs ih =>
    rw [List.foldl_cons, ih]
    cases hf : f.filter <;> simp [patStrings, hf, List.append_assoc]

theorem fusePattern_eq (filters : List NetworkFilter) :
    SimplePatternGroup.fusePattern filters
      = (if filters.any isEmptyPart then FilterPart.Empty
        else
          match (filters.map (fun f => patStrings f.filter)).flatten with
          | [] => FilterPart.Empty
          | [s] => FilterPart.Simple s
          | l => FilterPart.AnyOf l) := by
  rw [SimplePatternGroup.fusePattern]
  have hany : (filters.any (fun f =>
      match f.filter with | FilterPart.Empty => true | _ => false)) = filters.any isEmptyPart := by
    rfl
  rw [hany]
  by_cases h : filters.any isEmptyPart
  · rw [if_pos h, if_pos h]
  · rw [if_neg h, if_neg h]
    rw [foldl_flat_eq, List.nil_append]
    generalize (filters.map (fun f => patStrings f.filter)).flatten = fl
    rcases fl with _ | ⟨s, _ | ⟨t, r⟩⟩ <;> rfl

theorem any_congr_mem {α : Type} {l : List α} {p q : α → Bool}
    (h : ∀ x ∈ l, p x = q x) : l.any p = l.any q := by
  induction l with
  | nil => rfl
  | cons a l ih =>
    simp only [List.any_cons]
    rw [h a (List.mem_cons_self a l), ih (fun x hx => h x (List.mem_cons_of_mem a hx))]

theorem and_any {α : Type} (c : Bool) (l : List α) (p : α → Bool) :
    l.any (fun x => c && p x) = (c && l.any p) := by
  induction l with
  | nil => simp
  | cons a l ih =>
    simp only [List.any_cons, ih]
    cases c <;> cases p a <;> simp

theorem any_flatten_map {α β : Type} (l : List α) (sf : α → List β) (p : β → Bool) :
    ((l.map sf).flatten).any p = l.any (fun x => (sf x).any p) := by
  induction l with
  | nil => rfl
  | cons a l ih =>
    simp only [List.map_cons, List.flatten_cons, List.any_append, List.any_cons, ih]

theorem fusePattern_matchesWith (pm : String → String → Bool) (url : String)
    (g : List NetworkFilter) (hne : g ≠ [])
    (hwf : ∀ f ∈ g, wellFormed f = true) :
    (SimplePatternGroup.fusePattern g).matchesWith pm url
      = g.any (fun f => f.filter.matchesWith pm url) := by
  rw [fusePattern_eq]
  by_cases hE : g.any isEmptyPart
  · rw [if_pos hE]
    rcases List.any_eq_true.mp hE with ⟨f, hf, hfe⟩
    have hfilter : f.filter = FilterPart.Empty := by
      revert hfe
      rw [isEmptyPart]
      cases f.filter <;> simp
    have : f.filter.matchesWith pm url = true := by
      rw [hfilter]; rfl
    rw [FilterPart.matchesWith]
    exact (List.any_eq_true.mpr ⟨f, hf, this⟩).symm
  · rw [if_neg hE]
    have hnotE : ∀ f ∈ g, f.filter ≠ FilterPart.Empty := by
      intro f hf hcon
      apply hE
      refine List.any_eq_true.mpr ⟨f, hf, ?_⟩
      rw [isEmptyPart, hcon]
    have hpoint : ∀ f ∈ g, f.filter.matchesWith pm url = (patStrings f.filter).any (fun s => pm s url) := by
      intro f hf
      cases hfp : f.filter with
      | Empty => exact absurd hfp (hnotE f hf)
      | Simple s => simp [FilterPart.matchesWith, patStrings]
      | AnyOf l => simp [FilterPart.matchesWith, patStrings]
    rw [any_congr_mem hpoint, ← any_flatten_map g (fun f => patStrings f.filter) (fun s => pm s url)]
    have hflat : (g.map (fun f => patStrings f.filter)).flatten ≠ [] := by
      match g, hne with
      | f0 :: rest, _ =>
        have h0 : patStrings f0.filter ≠ [] := by
          cases hfp : f0.filter with
          | Empty => exact absurd hfp (hnotE f0 (List.mem_cons_self _ _))
          | Simple s => simp [patStrings]
          | AnyOf l =>
            have := hwf f0 (List.mem_cons_self _ _)
            rw [wellFormed, hfp] at this
            have h2 : 2 ≤ l.length := by simpa using this
            rw [patStrings]
            intro hcon
            rw [hcon] at h2
            simp at h2
        simp only [List.map_cons, List.flatten_cons]
        intro hcon
        rcases List.append_eq_nil.mp hcon with ⟨h1, _⟩
        exact h0 h1
    generalize hgen : (g.map (fun f => patStrings f.filter)).flatten = fl at hflat ⊢
    rcases fl with _ | ⟨s, _ | ⟨t, r⟩⟩
    · exact absurd rfl hflat
    · simp [FilterPart.matchesWith]
    · rfl

theorem fusion_cons (base : NetworkFilter) (rest : List NetworkFilter) :
    SimplePatternGroup.fusion (base :: rest) = some
      { base with
        filter := SimplePatternGroup.fusePattern (base :: rest)
        mask := maskSet (maskSet base.mask IS_REGEX true) IS_COMPLETE_REGEX
          ((base :: rest).any (fun f => f.is_complete_regex))
        raw_line :=
          if base.raw_line.isSome then
            some (String.intercalate " <+> " ((base :: rest).filterMap (fun f => f.raw_line)))
          else base.raw_line } := rfl

theorem select_eq_true_iff (f : NetworkFilter) :
    SimplePatternGroup.select f = true
      ↔ (f.is_fuzzy = false ∧ f.opt_domains = none ∧ f.opt_not_domains = none
          ∧ f.is_hostname_anchor = false ∧ f.is_redirect = false ∧ f.is_csp = false
          ∧ f.bug = none) := by
  rw [SimplePatternGroup.select]
  constructor
  · intro h
    simp only [Bool.and_eq_true, Bool.not_eq_true'] at h
    obtain ⟨⟨⟨⟨⟨⟨h1, h2⟩, h3⟩, h4⟩, h5⟩, h6⟩, h7⟩
      := h
    refine ⟨h1, Option.isNone_iff_eq_none.mp h2, Option.isNone_iff_eq_none.mp h3, h4, h5, h6, ?_⟩
    rw [NetworkFilter.has_bug] at h7
    exact Option.not_isSome.mp h7 |> Option.isNone_iff_eq_none.mp
  · rintro ⟨h1, h2, h3, h4, h5, h6, h7⟩
    simp [h1, h2, h3, h4, h5, h6, NetworkFilter.has_bug, h7]

theorem nonPatternKey_fused (base : NetworkFilter) (rest : List NetworkFilter) (k : NetworkFilter)
    (hk : SimplePatternGroup.fusion (base :: rest) = some k) :
    nonPatternKey k = nonPatternKey base := by
  rw [fusion_cons] at hk
  have hk2 := Option.some.inj hk
  rw [← hk2, nonPatternKey, nonPatternKey]
  simp only []
  rw [clearRegex_fusedMask]

theorem fusion_matchesWith
    (np : Nat × Option (List Nat) × Option (List Nat) × Option Nat → String → Bool)
    (pm : String → String → Bool) (url : String)
    (base : NetworkFilter) (rest : List NetworkFilter)
    (hmask : ∀ f ∈ base :: rest, f.mask = base.mask)
    (hsel : ∀ f ∈ base :: rest, SimplePatternGroup.select f = true)
    (hwf : ∀ f ∈ base :: rest, wellFormed f = true)
    (k : NetworkFilter) (hk : SimplePatternGroup.fusion (base :: rest) = some k) :
    k.matchesWith np pm url = (base :: rest).any (fun f => f.matchesWith np pm url) := by
  have hkey : ∀ f ∈ base :: rest, nonPatternKey f = nonPatternKey base := by
    intro f hf
    obtain ⟨_, hd, hnd, _, _, _, hb⟩ := (select_eq_true_iff f).mp (hsel f hf)
    obtain ⟨_, hd0, hnd0, _, _, _, hb0⟩ :=
      (select_eq_true_iff base).mp (hsel base (List.mem_cons_self _ _))
    rw [nonPatternKey, nonPatternKey, hmask f hf, hd, hnd, hb, hd0, hnd0, hb0]
  have hpoint : ∀ f ∈ base :: rest,
      f.matchesWith np pm url
        = (np (nonPatternKey base) url && f.filter.matchesWith pm url) := by
    intro f hf
    rw [NetworkFilter.matchesWith, hkey f hf]
  rw [any_congr_mem hpoint, and_any]
  have hkf := nonPatternKey_fused base rest k hk
  have hfp : k.filter = SimplePatternGroup.fusePattern (base :: rest) := by
    rw [fusion_cons] at hk
    rw [← Option.some.inj hk]
  rw [NetworkFilter.matchesWith, hkf, hfp]
  rw [fusePattern_matchesWith pm url (base :: rest) (by simp) hwf]

theorem perm_any {α : Type} {l1 l2 : List α} (h : l1.Perm l2) (p : α → Bool) :
    l1.any p = l2.any p := by
  cases h1 : l1.any p
  · cases h2 : l2.any p
    · rfl
    · rcases List.any_eq_true.mp h2 with ⟨x, hx, hpx⟩
      have hmem := h.mem_iff.mpr hx
      rw [← h1]
      exact (List.any_eq_true.mpr ⟨x, hmem, hpx⟩)
  · rcases List.any_eq_true.mp h1 with ⟨x, hx, hpx⟩
    have hmem := h.mem_iff.mp hx
    exact (List.any_eq_true.mpr ⟨x, hmem, hpx⟩).symm

theorem filterMap_fusion_any (p : NetworkFilter → Bool)
    (l : List (String × List NetworkFilter))
    (h : ∀ g ∈ l, ∃ k, SimplePatternGroup.fusion g.2 = some k ∧ p k = g.2.any p) :
    (l.filterMap (fun g => SimplePatternGroup.fusion g.2)).any p
      = l.any (fun g => g.2.any p) := by
  induction l with
  | nil => rfl
  | cons g l ih =>
    rcases h g (List.mem_cons_self _ _) with ⟨k, hk, hpk⟩
    rw [List.filterMap_cons, hk]
    simp only [List.any_cons, hpk]
    rw [ih (fun g' hg' => h g' (List.mem_cons_of_mem _ hg'))]

/-- C1: for every well-formed filter collection F and every request, the
request matches some filter of `optimize F` iff it matches some filter of
F — the union of the match sets is preserved, for every black-box
non-pattern predicate and every black-box string matcher. -/
theorem optimize_soundness
    (np : Nat × Option (List Nat) × Option (List Nat) × Option Nat → String → Bool)
    (pm : String → String → Bool) (F : List NetworkFilter) (url : String)
    (hwf : ∀ f ∈ F, wellFormed f = true) :
    (optimize F).any (fun f => f.matchesWith np pm url)
      = F.any (fun f => f.matchesWith np pm url) := by
  have hG := buildGroups_keyed simple_pattern_group
    (F.filter (fun f => simple_pattern_group.select f))
  have hGne := buildGroups_ne_nil simple_pattern_group
    (F.filter (fun f => simple_pattern_group.select f))
  have hGP := buildGroups_mem_prop simple_pattern_group
    (fun f => SimplePatternGroup.select f = true ∧ wellFormed f = true)
    (F.filter (fun f => simple_pattern_group.select f))
    (by
      intro f hf
      rcases List.mem_filter.mp hf with ⟨hmem, hsel⟩
      exact ⟨hsel, hwf f hmem⟩)
  rw [optimize_structure F]
  rw [List.any_append, List.any_append]
  have hpos : (F.filter (fun f => simple_pattern_group.select f)).any
        (fun f => f.matchesWith np pm url)
      = (groupsOf F).any (fun g => g.2.any (fun f => f.matchesWith np pm url)) := by
    rw [← any_flatten_map (groupsOf F) (fun g => g.2) (fun f => f.matchesWith np pm url)]
    exact (perm_any (buildGroups_flatten_perm simple_pattern_group _) _).symm
  have hsplitG : (groupsOf F).any (fun g => g.2.any (fun f => f.matchesWith np pm url))
      = ((bigGroupsOf F).any (fun g => g.2.any (fun f => f.matchesWith np pm url))
        || (smallGroupsOf F).any (fun g => g.2.any (fun f => f.matchesWith np pm url))) := by
    rw [← List.any_append]
    exact (perm_any (List.filter_append_perm (fun g => decide (1 < g.2.length)) (groupsOf F)) _).symm
  have hfused : (fusedOf F).any (fun f => f.matchesWith np pm url)
      = (bigGroupsOf F).any (fun g => g.2.any (fun f => f.matchesWith np pm url)) := by
    rw [fusedOf]
    apply filterMap_fusion_any
    intro g hg
    have hgin : g ∈ groupsOf F := List.mem_of_mem_filter hg
    have hne : g.2 ≠ [] := hGne g hgin
    match hg2 : g.2, hne with
    | base :: rest, _ =>
      have hk := fusion_cons base rest
      refine ⟨_, hk, ?_⟩
      apply fusion_matchesWith
      · intro f hf
        have hkey1 := hG g hgin f (by rw [hg2]; exact hf)
        have hkey2 := hG g hgin base (by rw [hg2]; exact List.mem_cons_self _ _)
        exact group_by_criteria_eq_mask (hkey1.trans hkey2.symm)
      · intro f hf
        exact (hGP g hgin f (by rw [hg2]; exact hf)).1
      · intro f hf
        exact (hGP g hgin f (by rw [hg2]; exact hf)).2
      · exact hk
  have hsingles : (singlesOf F).any (fun f => f.matchesWith np pm url)
      = (smallGroupsOf F).any (fun g => g.2.any (fun f => f.matchesWith np pm url)) := by
    rw [singlesOf]
    exact any_flatten_map _ _ _
  have hF : F.any (fun f => f.matchesWith np pm url)
      = ((F.filter (fun f => simple_pattern_group.select f)).any (fun f => f.matchesWith np pm url)
        || (ineligOf F).any (fun f => f.matchesWith np pm url)) := by
    rw [← List.any_append]
    exact (perm_any (List.filter_append_perm (fun f => simple_pattern_group.select f) F) _).symm
  rw [hfused, hsingles, hF, hpos, hsplitG]
  cases (bigGroupsOf F).any (fun g => g.2.any (fun f => f.matchesWith np pm url)) <;>
    cases (smallGroupsOf F).any (fun g => g.2.any (fun f => f.matchesWith np pm url)) <;>
    cases (ineligOf F).any (fun f => f.matchesWith np pm url) <;> rfl

/-! ## Counting -/

theorem filterMap_fusion_length (l : List (String × List NetworkFilter))
    (h : ∀ g ∈ l, g.2 ≠ []) :
    (l.filterMap (fun g => SimplePatternGroup.fusion g.2)).length = l.length := by
  induction l with
  | nil => rfl
  | cons g l ih =>
    have hne := h g (List.mem_cons_self _ _)
    match hg2 : g.2, hne with
    | base :: rest, _ =>
      rw [List.filterMap_cons, hg2, fusion_cons]
      simp only [List.length_cons]
      rw [ih (fun g' hg' => h g' (List.mem_cons_of_mem _ hg'))]

theorem length_le_sum_of_one_le (l : List (String × List NetworkFilter))
    (h : ∀ g ∈ l, 1 ≤ g.2.length) :
    l.length ≤ (l.map (fun g => g.2.length)).sum := by
  induction l with
  | nil => simp
  | cons g l ih =>
    simp only [List.length_cons, List.map_cons, List.sum_cons]
    have h1 := h g (List.mem_cons_self _ _)
    have h2 := ih (fun g' hg' => h g' (List.mem_cons_of_mem _ hg'))
    omega

theorem length_lt_sum_of_two_le (l : List (String × List NetworkFilter))
    (h : ∀ g ∈ l, 2 ≤ g.2.length) (hne : l ≠ []) :
    l.length < (l.map (fun g => g.2.length)).sum := by
  match l, hne with
  | g :: rest, _ =>
    simp only [List.length_cons, List.map_cons, List.sum_cons]
    have h1 := h g (List.mem_cons_self _ _)
    have h2 := length_le_sum_of_one_le rest
      (fun g' hg' => le_trans (by omega) (h g' (List.mem_cons_of_mem _ hg')))
    omega

theorem bigGroupsOf_two_le (F : List NetworkFilter) :
    ∀ g ∈ bigGroupsOf F, 2 ≤ g.2.length := by
  intro g hg
  have := List.of_mem_filter hg
  simpa using this

theorem smallGroupsOf_one_eq (F : List NetworkFilter) :
    ∀ g ∈ smallGroupsOf F, g.2.length = 1 := by
  intro g hg
  have h1 := List.of_mem_filter hg
  have h2 := buildGroups_ne_nil simple_pattern_group
    (F.filter (fun f => simple_pattern_group.select f)) g (List.mem_of_mem_filter hg)
  have h3 : ¬ 1 < g.2.length := by simpa using h1
  have h4 : g.2.length ≠ 0 := by
    intro hcon
    exact h2 (List.length_eq_zero.mp hcon)
  omega

theorem optimize_length_eq (F : List NetworkFilter) :
    (optimize F).length
      = (bigGroupsOf F).length + (ineligOf F).length
        + ((smallGroupsOf F).map (fun g => g.2.length)).sum := by
  rw [optimize_structure F, List.length_append, List.length_append]
  have h1 : (fusedOf F).length = (bigGroupsOf F).length := by
    rw [fusedOf]
    apply filterMap_fusion_length
    intro g hg
    exact buildGroups_ne_nil simple_pattern_group
      (F.filter (fun f => simple_pattern_group.select f)) g (List.mem_of_mem_filter hg)
  have h2 : (singlesOf F).length = ((smallGroupsOf F).map (fun g => g.2.length)).sum := by
    rw [singlesOf, List.length_flatten, List.map_map]
    rfl
  omega

theorem input_length_eq (F : List NetworkFilter) :
    F.length
      = ((bigGroupsOf F).map (fun g => g.2.length)).sum + (ineligOf F).length
        + ((smallGroupsOf F).map (fun g => g.2.length)).sum := by
  have hsplit : F.length
      = (F.filter (fun f => simple_pattern_group.select f)).length + (ineligOf F).length := by
    have := (List.filter_append_perm (fun f => simple_pattern_group.select f) F).length_eq
    rw [List.length_append] at this
    exact this.symm
  have hpos : (F.filter (fun f => simple_pattern_group.select f)).length
      = ((groupsOf F).map (fun g => g.2.length)).sum := by
    have hperm := buildGroups_flatten_perm simple_pattern_group
      (F.filter (fun f => simple_pattern_group.select f))
    rw [← hperm.length_eq, List.length_flatten, List.map_map]
    rfl
  have hg : ((groupsOf F).map (fun g => g.2.length)).sum
      = ((bigGroupsOf F).map (fun g => g.2.length)).sum
        + ((smallGroupsOf F).map (fun g => g.2.length)).sum := by
    have hperm := (List.filter_append_perm (fun g => decide (1 < g.2.length)) (groupsOf F)).map
      (fun g => g.2.length)
    have := hperm.sum_eq
    rw [List.map_append, List.sum_append] at this
    exact this.symm
  omega

theorem optimize_length_le (F : List NetworkFilter) :
    (optimize F).length ≤ F.length := by
  have h1 := optimize_length_eq F
  have h2 := input_length_eq F
  have h3 := length_le_sum_of_one_le (bigGroupsOf F)
    (fun g hg => le_trans (by omega) (bigGroupsOf_two_le F g hg))
  omega

theorem optimize_length_lt (F : List NetworkFilter) (hne : bigGroupsOf F ≠ []) :
    (optimize F).length < F.length := by
  have h1 := optimize_length_eq F
  have h2 := input_length_eq F
  have h3 := length_lt_sum_of_two_le (bigGroupsOf F) (bigGroupsOf_two_le F) hne
  omega

/-! ## Concrete filters used by witnesses and counterexamples -/

/-- An eligible filter with a clear mask and a simple pattern. -/
def wA : NetworkFilter := ⟨0, FilterPart.Simple "/static/ad-", none, none, none, none⟩

/-- A second eligible filter sharing the mask of `wA`. -/
def wB : NetworkFilter := ⟨0, FilterPart.Simple "/static/ad.", none, none, none, none⟩

/-- An eligible filter whose mask has only the regex-style bit set. -/
def wC : NetworkFilter := ⟨2 ^ IS_REGEX, FilterPart.Simple "/v1/pixel", none, none, none, none⟩

/-- A second eligible filter sharing the mask of `wC`. -/
def wD : NetworkFilter := ⟨2 ^ IS_REGEX, FilterPart.Simple "/v1/ads", none, none, none, none⟩

/-- An eligible filter carrying a raw source line. -/
def wR1 : NetworkFilter := ⟨0, FilterPart.Simple "/static/ad-", none, none, none, some "/static/ad-"⟩

/-- A second eligible filter carrying a raw source line. -/
def wR2 : NetworkFilter := ⟨0, FilterPart.Simple "/static/ad.", none, none, none, some "/static/ad."⟩

/-! ## The claims -/

theorem optimize_soundness_witness :
    (∀ f ∈ [wA, wB], wellFormed f = true)
      ∧ (optimize [wA, wB]).any (fun f => f.matchesWith (fun _ _ => true) (fun s u => s == u) "/static/ad-")
        = [wA, wB].any (fun f => f.matchesWith (fun _ _ => true) (fun s u => s == u) "/static/ad-") :=
  ⟨by decide,
    optimize_soundness (fun _ _ => true) (fun s u => s == u) [wA, wB] "/static/ad-" (by decide)⟩

/-- C2: the output of `optimize` is exactly one fused filter per
grouping-key class of eligible filters with at least two members, followed
by every ineligible filter and every eligible filter whose class has
exactly one member, each passthrough appearing unchanged (it is the input
filter itself, by value). -/
theorem optimize_output_composition (F : List NetworkFilter) :
    optimize F = fusedOf F ++ ineligOf F ++ singlesOf F
      ∧ (fusedOf F).length = (bigGroupsOf F).length
      ∧ (smallGroupsOf F).all (fun g => g.2.length == 1) = true := by
  refine ⟨optimize_structure F, ?_, ?_⟩
  · rw [fusedOf]
    apply filterMap_fusion_length
    intro g hg
    exact buildGroups_ne_nil simple_pattern_group _ g (List.mem_of_mem_filter hg)
  · rw [List.all_eq_true]
    intro g hg
    simpa using smallGroupsOf_one_eq F g hg

/-- C3: `optimize` never increases the filter count, and strictly reduces
it whenever at least one grouping-key class of eligible filters has two or
more members. -/
theorem optimize_count_reduction (F : List NetworkFilter) :
    (optimize F).length ≤ F.length
      ∧ ((∃ g ∈ groupsOf F, 2 ≤ g.2.length) → (optimize F).length < F.length) := by
  refine ⟨optimize_length_le F, ?_⟩
  rintro ⟨g, hg, h2⟩
  apply optimize_length_lt
  have : g ∈ bigGroupsOf F := by
    rw [bigGroupsOf, List.mem_filter]
    exact ⟨hg, by simpa using h2⟩
  exact List.ne_nil_of_mem this

theorem optimize_count_reduction_witness :
    ((optimize [wA, wB]).length ≤ ([wA, wB] : List NetworkFilter).length)
      ∧ (optimize [wA, wB]).length < ([wA, wB] : List NetworkFilter).length :=
  ⟨(optimize_count_reduction [wA, wB]).1,
    (optimize_count_reduction [wA, wB]).2 (by decide)⟩

/-- C4: the selection predicate of the pattern strategy holds iff the
filter is not fuzzy, has no domain include list, no domain exclude list,
is not a hostname anchor, not a redirect rule, not a CSP rule, and has no
bug-id. -/
theorem select_characterization (f : NetworkFilter) :
    SimplePatternGroup.select f = true
      ↔ (f.is_fuzzy = false ∧ f.opt_domains = none ∧ f.opt_not_domains = none
          ∧ f.is_hostname_anchor = false ∧ f.is_redirect = false ∧ f.is_csp = false
          ∧ f.bug = none) :=
  select_eq_true_iff f

/-- The pattern of the fused filter as the claim describes it: no-pattern
if any member is no-pattern; otherwise the members flattened in group
order, becoming no-pattern, single-pattern or multi-pattern according to
the length of the flattened sequence. -/
def claimFusedPattern (g : List NetworkFilter) : FilterPart :=
  if g.any isEmptyPart then FilterPart.Empty
  else
    match (g.map (fun f => patStrings f.filter)).flatten with
    | [] => FilterPart.Empty
    | [s] => FilterPart.Simple s
    | l => FilterPart.AnyOf l

/-- C5: on every non-empty group the fusion returns a filter whose pattern
is the no-pattern variant when some member is no-pattern, and otherwise the
order-preserving flattening of the member pattern strings, repacked as
no-pattern, single-pattern or multi-pattern by length. -/
theorem fusion_pattern_union (base : NetworkFilter) (rest : List NetworkFilter) :
    ∃ k, SimplePatternGroup.fusion (base :: rest) = some k
      ∧ k.filter = claimFusedPattern (base :: rest) := by
  refine ⟨_, fusion_cons base rest, ?_⟩
  rw [claimFusedPattern]
  exact fusePattern_eq (base :: rest)

/-- C6: on every non-empty group the fused filter has the regex-style bit
set, has the complete-regex flag iff some member is a complete regex,
agrees with the first member on every other bit of the 32-bit flag bitset,
and copies the domain lists and the bug-id of the first member. -/
theorem fusion_flags_frame (base : NetworkFilter) (rest : List NetworkFilter) :
    ∃ k, SimplePatternGroup.fusion (base :: rest) = some k
      ∧ k.mask.testBit IS_REGEX = true
      ∧ k.is_complete_regex = (base :: rest).any (fun f => f.is_complete_regex)
      ∧ ((List.range 32).all (fun j =>
          decide (j = IS_REGEX) || decide (j = IS_COMPLETE_REGEX)
            || (k.mask.testBit j == base.mask.testBit j))) = true
      ∧ k.opt_domains = base.opt_domains
      ∧ k.opt_not_domains = base.opt_not_domains
      ∧ k.bug = base.bug := by
  refine ⟨_, fusion_cons base rest, ?_, ?_, ?_, rfl, rfl, rfl⟩
  · exact testBit_fusedMask_IR base.mask _
  · exact testBit_fusedMask_ICR base.mask _
  · rw [List.all_eq_true]
    intro j hj
    have h32 : j < 32 := List.mem_range.mp hj
    by_cases hIR : j = IS_REGEX
    · simp [hIR]
    · by_cases hICR : j = IS_COMPLETE_REGEX
      · simp [hICR]
      · have h5 := testBit_fusedMask_other base.mask
          ((base :: rest).any (fun f => f.is_complete_regex)) j hIR hICR h32
        simp only [hIR, hICR, decide_False, Bool.false_or]
        exact beq_iff_eq.mpr h5

/-- C7: on every non-empty group whose first member carries a raw source
line, the fused filter carries the raw source lines of all members that
have one, in group order, joined by the separator; members without one
contribute nothing. -/
theorem fusion_provenance (base : NetworkFilter) (rest : List NetworkFilter)
    (h : base.raw_line.isSome = true) :
    ∃ k, SimplePatternGroup.fusion (base :: rest) = some k
      ∧ k.raw_line = some (String.intercalate " <+> "
          ((base :: rest).filterMap (fun f => f.raw_line))) := by
  refine ⟨_, fusion_cons base rest, ?_⟩
  simp only [h, if_pos]

theorem fusion_provenance_witness :
    (wR1.raw_line.isSome = true)
      ∧ ∃ k, SimplePatternGroup.fusion [wR1, wR2] = some k
        ∧ k.raw_line = some (String.intercalate " <+> "
            ([wR1, wR2].filterMap (fun f => f.raw_line))) :=
  ⟨rfl, fusion_provenance wR1 [wR2] rfl⟩

/-- C8: the fusion traps (returns the failure value) on the empty group,
and every group the driver builds is non-empty — and on the groups where
the driver actually invokes fusion (more than one member) the fusion
succeeds, so the trap is unreachable through `optimize`. -/
theorem fusion_empty_trap (F : List NetworkFilter) :
    SimplePatternGroup.fusion [] = none
      ∧ (groupsOf F).all (fun g =>
          !g.2.isEmpty
            && (!decide (1 < g.2.length) || (SimplePatternGroup.fusion g.2).isSome)) = true := by
  refine ⟨rfl, ?_⟩
  rw [List.all_eq_true]
  intro g hg
  have hne := buildGroups_ne_nil simple_pattern_group _ g hg
  rcases hgl : g.2 with _ | ⟨base, rest⟩
  · exact absurd hgl hne
  · simp [fusion_cons]

/-- C9 counterexample: two eligible classes that differ only in the
regex-style bit are both fused, the two fused filters share a grouping
key, and a second run of `optimize` fuses them further — the output length
changes, refuting idempotence. -/
theorem optimize_not_idempotent :
    (optimize (optimize [wA, wB, wC, wD])).length
      ≠ (optimize [wA, wB, wC, wD]).length := by decide

/-- C9 amended: re-running `optimize` on its own output never increases
the filter count (it may strictly reduce it, because fusion normalizes the
regex flag bits and distinct classes can collide in the output). -/
theorem optimize_reapply_length_le (F : List NetworkFilter) :
    (optimize (optimize F)).length ≤ (optimize F).length :=
  optimize_length_le (optimize F)

/-- C10: the ineligible filters appear in the output in their original
relative input order, after all fused filters and before every eligible
singleton. -/
theorem optimize_passthrough_order (F : List NetworkFilter) :
    optimize F
      = fusedOf F ++ F.filter (fun f => !simple_pattern_group.select f) ++ singlesOf F :=
  optimize_structure F
